import Mathlib

/-!
Shallow embedding of the bit-slice operations of the bitvec-sgx repository
(src/slice.rs and src/store.rs).

A bit slice is modelled by the sequence of its semantic bits, index 0 first:
the `get_unchecked i` of slice.rs is list lookup at `i`, and `set_unchecked`
is `List.set`.  Every algorithm of slice.rs that loops over semantic indices
translates to structural recursion over that list.  Element-level storage
(store.rs) is modelled by a natural number with bits read through `Nat.testBit`
and a pluggable cursor position map, and the domain decomposition driving the
whole-range queries is modelled over an explicit list of storage elements.
-/

namespace BitSlice

/-- Modelled from the spec: the crate-root full-adder helper `rca1` is not
under src/.  Given bits `a`, `b` and incoming carry `c` it computes the sum
bit `a xor b xor c` and the outgoing carry `(a and b) or (c and (a xor b))`
(spec section 4.5, fixed-width addition, per-bit step). -/
def rca1 (a b c : Bool) : Bool × Bool :=
  (xor (xor a b) c, (a && b) || (c && xor a b))

/-- The ripple-carry loop shared by `BitSlice::add_assign_reverse` and
`AddAssign::add_assign`: walk the slice from index 0, pairing each bit with
the next addend bit (an exhausted addend supplies `false`, matching
`chain(repeat(false))`), write the sum bit back, propagate the carry, and
return the final carry-out together with the updated bits. -/
def ripple : List Bool → List Bool → Bool → List Bool × Bool
  | [], _, c => ([], c)
  | a :: as, bs, c =>
    let s := rca1 a (bs.headD false) c
    let r := ripple as bs.tail s.2
    (s.1 :: r.1, r.2)

/-- Embeds `BitSlice::add_assign_reverse` (slice.rs lines 952 to 968): addition
walking left to right, index 0 treated as least significant, the addend
zero-extended on exhaustion, the final carry bit returned. -/
def add_assign_reverse (l addend : List Bool) : List Bool × Bool :=
  ripple l addend false

/-- Embeds `AddAssign::add_assign` (slice.rs lines 1197 to 1222): addition
walking both operands right to left (rightmost bit least significant), the
addend reversed and zero-extended with `chain(repeat(false))`, and the final
carry-out discarded. -/
def add_assign (l addend : List Bool) : List Bool :=
  ((ripple l.reverse addend.reverse false).1).reverse

/-- Embeds the `Not` implementation for `&mut BitSlice` (slice.rs lines 1663
to 1686): invert every bit of the slice in place. -/
def bitnot (l : List Bool) : List Bool :=
  l.map (fun b => !b)

/-- Whether any semantic bit of the slice is set; the sequence-level meaning
of `BitSlice::any` (slice.rs lines 582 to 600). -/
def any (l : List Bool) : Bool :=
  l.any id

/-- Embeds `BitSlice::not_any` (slice.rs lines 662 to 664): `!self.any()`. -/
def not_any (l : List Bool) : Bool :=
  !(any l)

/-- Embeds `Neg::neg` for `&mut BitSlice` (slice.rs lines 1614 to 1634):
an empty or all-zero slice is returned unchanged; a slice with bit 0 set
whose remaining bits are all zero (the most negative pattern) has bit 0
cleared and is returned; any other slice is inverted and incremented by a
single injected carry. -/
def neg (l : List Bool) : List Bool :=
  if l.isEmpty || not_any l then l
  else if l.getD 0 false && not_any (l.set 0 false) then l.set 0 false
  else add_assign (bitnot l) [true]

/-- Embeds `BitSlice::set_all` (slice.rs lines 834 to 857): every bit of the
range, across every domain shape, is written with `value`. -/
def set_all (l : List Bool) (value : Bool) : List Bool :=
  List.replicate l.length value

/-- Embeds `ShlAssign::shl_assign` (slice.rs lines 1739 to 1790) for a slice
of bits `l` whose element type has width `w` (`T::BITS`) and width exponent
`indx` (`T::INDX`, the trailing-zero count of the width), and whose domain
shape is `spanning`.  A zero shift returns the slice unchanged; a shift of at
least the length clears the whole slice via `set_all(false)`.  Otherwise the
spanning fast path computes the element offset `shamt >> T::INDX` and the
retained element count `rem`, indexes `as_slice()[offset]` and
`as_mut_slice()[rem]` (each a bounds panic, modelled as `none`, when the
index reaches the element count; the latter happens whenever `offset` is
zero), block-moves the retained elements toward the front, zero-fills the
vacated tail elements, and recurses on the retained prefix with the residual
amount `shamt & T::INDX` exactly as the source writes it; `fuel` bounds that
recursion, with `none` on exhaustion.  A non-spanning slice crawls: bit
`to + shamt` is copied into bit `to` in ascending order and the vacated
suffix is cleared. -/
def shl_assign (w indx fuel : Nat) (spanning : Bool) (l : List Bool)
    (shamt : Nat) : Option (List Bool) :=
  if shamt = 0 then some l
  else if l.length ≤ shamt then some (set_all l false)
  else if spanning then
    match fuel with
    | 0 => none
    | fuel' + 1 =>
      let offset := shamt >>> indx
      let elements := l.length / w
      let rem := elements - offset
      if offset < elements then
        if rem < elements then
          let l2 := l.drop (offset <<< indx)
            ++ List.replicate (offset <<< indx) false
          match shl_assign w indx fuel' true (l2.take (rem <<< indx))
              (shamt &&& indx) with
          | some p => some (p ++ l2.drop (rem <<< indx))
          | none => none
        else none
      else none
  else some (l.drop shamt ++ List.replicate shamt false)
termination_by structural fuel

/-- Embeds `ShrAssign::shr_assign` (slice.rs lines 1842 to 1886) with the
same parameters as `shl_assign`.  A zero shift returns the slice unchanged; a
shift of at least the length clears the whole slice via `set_all(false)`.
Otherwise the spanning fast path computes the element offset
`shamt >> T::INDX`, indexes `as_mut_slice()[offset]` (a bounds panic,
modelled as `none`, when it reaches the element count), block-moves the
retained elements toward the back, zero-fills the vacated front elements, and
recurses on the suffix from the element offset with the residual amount
`shamt & T::INDX` exactly as the source writes it; the residual can repeat
itself, so `fuel` bounds the recursion, with `none` on exhaustion standing
for the nonterminating runs.  A non-spanning slice crawls: bit `i` is copied
into bit `i + shamt` in descending order and the vacated prefix is
cleared. -/
def shr_assign (w indx fuel : Nat) (spanning : Bool) (l : List Bool)
    (shamt : Nat) : Option (List Bool) :=
  if shamt = 0 then some l
  else if l.length ≤ shamt then some (set_all l false)
  else if spanning then
    match fuel with
    | 0 => none
    | fuel' + 1 =>
      let offset := shamt >>> indx
      let elements := l.length / w
      let rem := elements - offset
      if offset < elements then
        let l2 := List.replicate (offset <<< indx) false
          ++ l.take (rem <<< indx)
        match shr_assign w indx fuel' true (l2.drop (offset <<< indx))
            (shamt &&& indx) with
        | some p => some (l2.take (offset <<< indx) ++ p)
        | none => none
      else none
  else some (List.replicate shamt false ++ l.take (l.length - shamt))
termination_by structural fuel

/-- Embeds `BitAndAssign::bitand_assign` (slice.rs lines 1255 to 1265): the
source is zero-extended with `chain(repeat(false))` and consumed in lockstep,
stopping once `self` is exhausted; an exhausted source therefore supplies
`false`, clearing the tail of `self`. -/
def bitand_assign : List Bool → List Bool → List Bool
  | [], _ => []
  | a :: as, bs => (a && bs.headD false) :: bitand_assign as bs.tail

/-- Embeds `BitOrAssign::bitor_assign` (slice.rs lines 1298 to 1306): the
source is consumed in lockstep with no zero-extension, so iteration stops as
soon as either operand is exhausted; remaining bits of `self` are untouched. -/
def bitor_assign : List Bool → List Bool → List Bool
  | [], _ => []
  | l, [] => l
  | a :: as, b :: bs => (a || b) :: bitor_assign as bs

/-- Embeds `BitXorAssign::bitxor_assign` (slice.rs lines 1339 to 1347): the
source is consumed in lockstep with no zero-extension, so iteration stops as
soon as either operand is exhausted; remaining bits of `self` are untouched. -/
def bitxor_assign : List Bool → List Bool → List Bool
  | [], _ => []
  | l, [] => l
  | a :: as, b :: bs => xor a b :: bitxor_assign as bs

/-- Embeds `BitSlice::set` (slice.rs lines 340 to 344): asserts
`index < len` and otherwise writes the bit; the failure of the assertion is
modelled as `none`, in which case no memory is written. -/
def set (l : List Bool) (index : Nat) (value : Bool) : Option (List Bool) :=
  if index < l.length then some (l.set index value) else none

/-- Embeds `Index<usize>::index` (slice.rs lines 1377 to 1381): asserts
`index < len` and otherwise reads the bit. -/
def index_bit (l : List Bool) (index : Nat) : Option Bool :=
  if index < l.length then some (l.getD index false) else none

/-- Embeds `Index<Range<usize>>::index` (slice.rs lines 1388 to 1407): asserts
`start <= len`, `stop <= len` and `start <= stop` in that order, then
re-derives the subslice of exactly the bits `start` up to `stop`. -/
def index_range (l : List Bool) (start stop : Nat) : Option (List Bool) :=
  if start ≤ l.length then
    if stop ≤ l.length then
      if start ≤ stop then some ((l.drop start).take (stop - start))
      else none
    else none
  else none

/-- Embeds the `BitGuard` structure (slice.rs lines 1899 to 1904): a cached
bit value together with the index of the single-bit subslice it will be
committed to. -/
structure Guard where
  bit : Bool
  idx : Nat
  deriving Repr, DecidableEq

/-- Embeds `BitSlice::at` (slice.rs lines 470 to 482): asserts `index < len`,
then snapshots the current bit into the cache of a guard holding the
single-bit subslice at `index`. -/
def at_bit (l : List Bool) (index : Nat) : Option Guard :=
  if index < l.length then some ⟨l.getD index false, index⟩ else none

/-- Embeds `Drop for BitGuard` (slice.rs lines 1925 to 1930): on release the
cached bit is written back through the single-bit subslice, that is, into the
parent slice at the guarded index. -/
def commit (l : List Bool) (g : Guard) : List Bool :=
  l.set g.idx g.bit

/-- Little-endian value of a bit sequence: index 0 is least significant. -/
def toNatLE : List Bool → Nat
  | [] => 0
  | b :: bs => b.toNat + 2 * toNatLE bs

/-- Big-endian value of a bit sequence: the last index is least significant,
matching the orientation in which `add_assign` and `neg` interpret a slice. -/
def toNatBE (l : List Bool) : Nat :=
  toNatLE l.reverse

end BitSlice

namespace BitStore

/-- Modelled from the spec: `Cursor::mask` is not under src/.  The spec
(section 4.2) requires `mask` to be a pure map from a semantic in-element
index to a one-hot mask; every one-hot value is a power of two, so a cursor
is represented without loss of generality by its physical position map
`pos`, with `mask pos place = 2 ^ pos place`. -/
def mask (pos : Nat → Nat) (place : Nat) : Nat :=
  2 ^ pos place

/-- Embeds `BitStore::set` (store.rs lines 137 to 146): on `true` the mask is
OR-ed into the element, on `false` the complement of the mask (complement
taken within the `w`-bit element type) is AND-ed into the element. -/
def set (w : Nat) (pos : Nat → Nat) (e place : Nat) (value : Bool) : Nat :=
  if value then e ||| mask pos place
  else e &&& ((2 ^ w - 1) ^^^ mask pos place)

/-- Embeds `BitStore::get` (store.rs lines 168 to 171): the element AND-ed
with the mask, compared against zero. -/
def get (pos : Nat → Nat) (e place : Nat) : Bool :=
  decide (e &&& mask pos place ≠ 0)

/-- Embeds `BitStore::count_ones` (store.rs lines 204 to 206): the population
count of the zero-extended element, computed here as the sum of its bits
below the element width (identical for element values below `2 ^ w`). -/
def count_ones (w e : Nat) : Nat :=
  ((List.range w).map (fun i => (Nat.testBit e i).toNat)).sum

/-- Embeds `BitStore::count_zeros` (store.rs lines 240 to 243): invert the
element within its width, then count the set bits. -/
def count_zeros (w e : Nat) : Nat :=
  count_ones w ((2 ^ w - 1) ^^^ e)

/-- Embeds `BitStore::bits` (store.rs lines 255 to 262): extend a single bit
to fill the whole element. -/
def bits (w : Nat) (bit : Bool) : Nat :=
  if bit then 2 ^ w - 1 else 0

end BitStore

namespace BitView

/-- A bit-addressed view at the storage level: element width `w`, start
offset `head` inside the first element, bit length `len`, and the list `mem`
of exactly the storage elements the range spans (BitPtr of the spec,
section 3, with the memory contents made explicit). -/
structure View where
  w : Nat
  head : Nat
  len : Nat
  mem : List Nat

/-- Modelled from the spec: `element_count` (spec section 4.1) is not under
src/; it is the ceiling of `(head + len) / w`. -/
def elts (v : View) : Nat :=
  (v.head + v.len + v.w - 1) / v.w

/-- The in-element bound one past the last live bit of the final spanned
element, so that the final partial element holds bits `0` up to `tailBits`. -/
def tailBits (v : View) : Nat :=
  v.head + v.len - (elts v - 1) * v.w

/-- Well-formedness of a view: positive width, in-range head offset, and a
memory list covering exactly the spanned elements. -/
def Wf (v : View) : Prop :=
  0 < v.w ∧ v.head < v.w ∧ v.mem.length = elts v

/-- The six domain shapes of the decomposition (spec section 3). -/
inductive Domain where
  | empty
  | minor (head elt tail : Nat)
  | major (head headElt : Nat) (body : List Nat) (tailElt tail : Nat)
  | partialHead (head headElt : Nat) (body : List Nat)
  | partialTail (body : List Nat) (tailElt tail : Nat)
  | spanning (body : List Nat)

/-- Modelled from the spec: the domain decomposition `classify` (spec
sections 3 and 4.3) is not under src/.  A zero-length range is `Empty`; a
range reaching both element edges is `Spanning`; reaching exactly the
trailing edge is `PartialTail`; exactly the leading edge is `PartialHead`;
neither edge within a single element is `Minor`; neither edge across several
elements is `Major`. -/
def classify (v : View) : Domain :=
  if v.len = 0 then .empty
  else if v.head = 0 ∧ tailBits v = v.w then .spanning v.mem
  else if v.head = 0 then
    .partialTail v.mem.dropLast (v.mem.getLastD 0) (tailBits v)
  else if tailBits v = v.w then
    .partialHead v.head (v.mem.headD 0) v.mem.tail
  else if elts v = 1 then .minor v.head (v.mem.headD 0) (tailBits v)
  else
    .major v.head (v.mem.headD 0) v.mem.tail.dropLast (v.mem.getLastD 0)
      (tailBits v)

/-- The number of set bits of element `e` among in-element indices `a` up to
`b`, read through the cursor; the per-bit edge loop of `count_ones`. -/
def onesRange (pos : Nat → Nat) (e a b : Nat) : Nat :=
  ((List.range' a (b - a)).map (fun n => (BitStore.get pos e n).toNat)).sum

/-- The number of clear bits of element `e` among in-element indices `a` up
to `b`, read through the cursor; the per-bit edge loop of `count_zeros`. -/
def zerosRange (pos : Nat → Nat) (e a b : Nat) : Nat :=
  ((List.range' a (b - a)).map (fun n => (!BitStore.get pos e n).toNat)).sum

/-- Embeds `BitSlice::count_ones` (slice.rs lines 721 to 756): per-bit counts
over the partial edge elements plus the element population count over the
fully-owned body elements, dispatched on the domain shape. -/
def count_ones (pos : Nat → Nat) (v : View) : Nat :=
  match classify v with
  | .empty => 0
  | .minor head elt tail => onesRange pos elt head tail
  | .major head headElt body tailElt tail =>
    onesRange pos headElt head v.w
      + (body.map (BitStore.count_ones v.w)).sum
      + onesRange pos tailElt 0 tail
  | .partialHead head headElt body =>
    onesRange pos headElt head v.w + (body.map (BitStore.count_ones v.w)).sum
  | .partialTail body tailElt tail =>
    (body.map (BitStore.count_ones v.w)).sum + onesRange pos tailElt 0 tail
  | .spanning body => (body.map (BitStore.count_ones v.w)).sum

/-- Embeds `BitSlice::count_zeros` (slice.rs lines 776 to 811): per-bit
inverted counts over the partial edge elements plus the element zero count
over the fully-owned body elements, dispatched on the domain shape. -/
def count_zeros (pos : Nat → Nat) (v : View) : Nat :=
  match classify v with
  | .empty => 0
  | .minor head elt tail => zerosRange pos elt head tail
  | .major head headElt body tailElt tail =>
    zerosRange pos headElt head v.w
      + (body.map (BitStore.count_zeros v.w)).sum
      + zerosRange pos tailElt 0 tail
  | .partialHead head headElt body =>
    zerosRange pos headElt head v.w + (body.map (BitStore.count_zeros v.w)).sum
  | .partialTail body tailElt tail =>
    (body.map (BitStore.count_zeros v.w)).sum + zerosRange pos tailElt 0 tail
  | .spanning body => (body.map (BitStore.count_zeros v.w)).sum

/-- Embeds `BitSlice::all` (slice.rs lines 533 to 551): edge bits are tested
one by one through the cursor, body elements are compared whole against the
all-ones pattern `T::bits(true)`; the empty domain is vacuously `true`. -/
def all (pos : Nat → Nat) (v : View) : Bool :=
  match classify v with
  | .empty => true
  | .minor head elt tail =>
    (List.range' head (tail - head)).all (fun n => BitStore.get pos elt n)
  | .major head headElt body tailElt tail =>
    ((List.range' head (v.w - head)).all (fun n => BitStore.get pos headElt n)
      && (List.range' 0 tail).all (fun n => BitStore.get pos tailElt n))
      && body.all (fun e => e == BitStore.bits v.w true)
  | .partialHead head headElt body =>
    (List.range' head (v.w - head)).all (fun n => BitStore.get pos headElt n)
      && body.all (fun e => e == BitStore.bits v.w true)
  | .partialTail body tailElt tail =>
    (List.range' 0 tail).all (fun n => BitStore.get pos tailElt n)
      && body.all (fun e => e == BitStore.bits v.w true)
  | .spanning body => body.all (fun e => e == BitStore.bits v.w true)

/-- Embeds `BitSlice::any` (slice.rs lines 582 to 600): edge bits are tested
one by one through the cursor, body elements are compared whole against the
all-zeros pattern `T::bits(false)`; the empty domain is `false`. -/
def any (pos : Nat → Nat) (v : View) : Bool :=
  match classify v with
  | .empty => false
  | .minor head elt tail =>
    (List.range' head (tail - head)).any (fun n => BitStore.get pos elt n)
  | .major head headElt body tailElt tail =>
    ((List.range' head (v.w - head)).any (fun n => BitStore.get pos headElt n)
      || (List.range' 0 tail).any (fun n => BitStore.get pos tailElt n))
      || body.any (fun e => !(e == BitStore.bits v.w false))
  | .partialHead head headElt body =>
    (List.range' head (v.w - head)).any (fun n => BitStore.get pos headElt n)
      || body.any (fun e => !(e == BitStore.bits v.w false))
  | .partialTail body tailElt tail =>
    (List.range' 0 tail).any (fun n => BitStore.get pos tailElt n)
      || body.any (fun e => !(e == BitStore.bits v.w false))
  | .spanning body => body.any (fun e => !(e == BitStore.bits v.w false))

/-- Embeds `BitSlice::not_all` (slice.rs lines 630 to 632): `!self.all()`. -/
def not_all (pos : Nat → Nat) (v : View) : Bool :=
  !(all pos v)

/-- Embeds `BitSlice::not_any` (slice.rs lines 662 to 664): `!self.any()`. -/
def not_any (pos : Nat → Nat) (v : View) : Bool :=
  !(any pos v)

/-- Embeds `BitSlice::some` (slice.rs lines 699 to 701):
`self.any() && self.not_all()`. -/
def some (pos : Nat → Nat) (v : View) : Bool :=
  any pos v && not_all pos v

end BitView

namespace BitSlice

theorem headD_eq_getD (l : List Bool) : l.headD false = l.getD 0 false := by
  cases l <;> rfl

theorem tail_getD (l : List Bool) (i : Nat) :
    l.tail.getD i false = l.getD (i + 1) false := by
  cases l <;> rfl

theorem bitand_assign_length (lhs rhs : List Bool) :
    (bitand_assign lhs rhs).length = lhs.length := by
  induction lhs generalizing rhs with
  | nil => rfl
  | cons a as ih => simp [bitand_assign, ih]

theorem bitand_assign_getD (lhs rhs : List Bool) (i : Nat) :
    (bitand_assign lhs rhs).getD i false
      = (lhs.getD i false && rhs.getD i false) := by
  induction lhs generalizing rhs i with
  | nil => simp [bitand_assign]
  | cons a as ih =>
    cases i with
    | zero => cases rhs <;> simp [bitand_assign]
    | succ n =>
      simp only [bitand_assign, List.getD_cons_succ]
      exact (ih rhs.tail n).trans (by rw [tail_getD])

theorem bitand_assign_take (lhs rhs : List Bool) :
    bitand_assign lhs rhs = bitand_assign lhs (rhs.take lhs.length) := by
  induction lhs generalizing rhs with
  | nil => rfl
  | cons a as ih =>
    cases rhs with
    | nil => simp [bitand_assign]
    | cons b bs =>
      simp only [bitand_assign, List.length_cons, List.take_succ_cons,
        List.headD_cons, List.tail_cons]
      exact congrArg _ (ih bs)

theorem bitor_assign_length (lhs rhs : List Bool) :
    (bitor_assign lhs rhs).length = lhs.length := by
  induction lhs generalizing rhs with
  | nil => cases rhs <;> rfl
  | cons a as ih =>
    cases rhs with
    | nil => rfl
    | cons b bs => simp [bitor_assign, ih]

theorem bitor_assign_getD_of_le (lhs rhs : List Bool) (i : Nat)
    (h : rhs.length ≤ i) :
    (bitor_assign lhs rhs).getD i false = lhs.getD i false := by
  induction lhs generalizing rhs i with
  | nil => simp [bitor_assign]
  | cons a as ih =>
    cases rhs with
    | nil => rfl
    | cons b bs =>
      cases i with
      | zero => exact absurd h (by simp)
      | succ n =>
        simp only [bitor_assign, List.getD_cons_succ]
        exact ih bs n (by simpa using h)

theorem bitor_assign_take (lhs rhs : List Bool) :
    bitor_assign lhs rhs = bitor_assign lhs (rhs.take lhs.length) := by
  induction lhs generalizing rhs with
  | nil => cases rhs <;> rfl
  | cons a as ih =>
    cases rhs with
    | nil => rfl
    | cons b bs =>
      simp only [bitor_assign, List.length_cons, List.take_succ_cons,
        List.cons.injEq, true_and]
      exact ih bs

theorem bitxor_assign_length (lhs rhs : List Bool) :
    (bitxor_assign lhs rhs).length = lhs.length := by
  induction lhs generalizing rhs with
  | nil => cases rhs <;> rfl
  | cons a as ih =>
    cases rhs with
    | nil => rfl
    | cons b bs => simp [bitxor_assign, ih]

theorem bitxor_assign_getD_of_le (lhs rhs : List Bool) (i : Nat)
    (h : rhs.length ≤ i) :
    (bitxor_assign lhs rhs).getD i false = lhs.getD i false := by
  induction lhs generalizing rhs i with
  | nil => simp [bitxor_assign]
  | cons a as ih =>
    cases rhs with
    | nil => rfl
    | cons b bs =>
      cases i with
      | zero => exact absurd h (by simp)
      | succ n =>
        simp only [bitxor_assign, List.getD_cons_succ]
        exact ih bs n (by simpa using h)

theorem bitxor_assign_take (lhs rhs : List Bool) :
    bitxor_assign lhs rhs = bitxor_assign lhs (rhs.take lhs.length) := by
  induction lhs generalizing rhs with
  | nil => cases rhs <;> rfl
  | cons a as ih =>
    cases rhs with
    | nil => rfl
    | cons b bs =>
      simp only [bitxor_assign, List.length_cons, List.take_succ_cons,
        List.cons.injEq, true_and]
      exact ih bs

theorem any_replicate_false (n : Nat) :
    any (List.replicate n false) = false := by
  simp [any]

theorem not_any_replicate_false (n : Nat) :
    not_any (List.replicate n false) = true := by
  simp [not_any, any_replicate_false]

end BitSlice

namespace BitSlice

/-- C4: AND-assignment with a shorter source clears every bit of `lhs` at or
beyond the length of `rhs`, while the bits below that length become the
conjunction of the two operands. -/
theorem bitand_assign_truncates (lhs rhs : List Bool)
    (hlt : rhs.length < lhs.length) :
    (∀ i, rhs.length ≤ i → i < lhs.length →
      (bitand_assign lhs rhs).getD i false = false) ∧
    (∀ i, i < rhs.length →
      (bitand_assign lhs rhs).getD i false
        = (lhs.getD i false && rhs.getD i false)) := by
  refine ⟨fun i hge _ => ?_, fun i _ => bitand_assign_getD lhs rhs i⟩

  rw [bitand_assign_getD, List.getD_eq_default _ _ hge, Bool.and_false]

/-- Witness for C4 at a concrete input. -/
theorem bitand_assign_truncates_case :
    (bitand_assign [true, true, true] [true]).getD 1 false = false :=
  (bitand_assign_truncates [true, true, true] [true] (by decide)).1 1
    (by decide) (by decide)

/-- C5: OR-assignment and XOR-assignment with a shorter source leave the bits
of `lhs` at or beyond the length of `rhs` unchanged, and all three bitwise
assignments produce exactly `lhs.length` bits while consuming at most the
first `lhs.length` bits of the source. -/
theorem bitor_bitxor_assign_frame (lhs rhs : List Bool) :
    (rhs.length < lhs.length → ∀ i, rhs.length ≤ i →
      (bitor_assign lhs rhs).getD i false = lhs.getD i false ∧
      (bitxor_assign lhs rhs).getD i false = lhs.getD i false) ∧
    ((bitand_assign lhs rhs).length = lhs.length ∧
      (bitor_assign lhs rhs).length = lhs.length ∧
      (bitxor_assign lhs rhs).length = lhs.length) ∧
    (lhs.length < rhs.length →
      bitand_assign lhs rhs = bitand_assign lhs (rhs.take lhs.length) ∧
      bitor_assign lhs rhs = bitor_assign lhs (rhs.take lhs.length) ∧
      bitxor_assign lhs rhs = bitxor_assign lhs (rhs.take lhs.length)) :=
  ⟨fun _ i hi =>
    ⟨bitor_assign_getD_of_le lhs rhs i hi,
      bitxor_assign_getD_of_le lhs rhs i hi⟩,
    ⟨bitand_assign_length lhs rhs, bitor_assign_length lhs rhs,
      bitxor_assign_length lhs rhs⟩,
    fun _ =>
    ⟨bitand_assign_take lhs rhs, bitor_assign_take lhs rhs,
      bitxor_assign_take lhs rhs⟩⟩

/-- Witness for C5 at concrete inputs. -/
theorem bitor_bitxor_assign_frame_case :
    (bitor_assign [true, false, false] [true]).getD 2 false = false ∧
    bitxor_assign [true, false] [true, true, true]
      = bitxor_assign [true, false] [true, true] :=
  ⟨((bitor_bitxor_assign_frame [true, false, false] [true]).1 (by decide) 2
      (by decide)).1.trans (by decide),
    ((bitor_bitxor_assign_frame [true, false] [true, true, true]).2.2
      (by decide)).2.2.trans (by decide)⟩

/-- The spanning fast path of `shl_assign` bounds-panics on a sub-element
shift: a left shift by 3 of a spanning two-byte slice computes a zero element
offset, so `as_mut_slice()[rem]` indexes with `rem` equal to the element
count. -/
theorem shl_assign_spanning_subelement :
    shl_assign 8 3 16 true (List.replicate 16 true) 3 = Option.none := by
  decide

/-- The spanning fast path of `shr_assign` recurses with `shamt & T::INDX`;
for a sub-element shift the residual reproduces itself, so the recursion
exhausts any fuel (shown here at fuel 4): a right shift by 3 of a spanning
two-byte slice never completes. -/
theorem shr_assign_spanning_subelement :
    shr_assign 8 3 4 true (List.replicate 16 true) 3 = Option.none := by
  decide

/-- The spanning fast path masks the residual shift with `T::INDX` instead of
`T::MASK`: a left shift by 12 of a spanning two-byte slice moves the bits by
only 8 places (12 and 3 have no common bits, so the recursion stops after the
whole-element move). -/
theorem shl_assign_spanning_wrong_residual :
    shl_assign 8 3 16 true
        (List.replicate 8 false ++ List.replicate 8 true) 12
      = Option.some (List.replicate 8 true ++ List.replicate 8 false) := by
  decide

/-- C2: for every element width, width exponent, recursion fuel, domain shape
and slice: a shift amount of at least the slice length (and nonzero) makes
both shift assignments succeed with every bit of the slice clear, a shift
amount of zero makes both succeed with the slice unchanged, and in particular
neither operation reports an error for a shift amount of at least the
length (both cases return before the fast path is consulted). -/
theorem shift_laws (w indx fuel : Nat) (spanning : Bool) (l : List Bool)
    (shamt : Nat) :
    (shamt ≠ 0 → l.length ≤ shamt →
      shl_assign w indx fuel spanning l shamt
          = Option.some (set_all l false) ∧
      shr_assign w indx fuel spanning l shamt
          = Option.some (set_all l false) ∧
      not_any (set_all l false) = true ∧
      (set_all l false).length = l.length) ∧
    (shl_assign w indx fuel spanning l 0 = Option.some l ∧
      shr_assign w indx fuel spanning l 0 = Option.some l) := by
  refine ⟨fun h0 hle => ⟨?_, ?_, ?_, ?_⟩, ?_, ?_⟩
  · rw [shl_assign.eq_def, if_neg h0, if_pos hle]
  · rw [shr_assign.eq_def, if_neg h0, if_pos hle]
  · rw [set_all]
    exact not_any_replicate_false _
  · simp [set_all]
  · rw [shl_assign.eq_def, if_pos rfl]
  · rw [shr_assign.eq_def, if_pos rfl]

/-- Witness for C2 at a concrete input: a spanning two-byte slice. -/
theorem shift_laws_case :
    shl_assign 8 3 16 true (List.replicate 16 true) 20
      = Option.some (List.replicate 16 false) ∧
    shr_assign 8 3 16 true (List.replicate 16 true) 0
      = Option.some (List.replicate 16 true) :=
  ⟨((shift_laws 8 3 16 true (List.replicate 16 true) 20).1 (by decide)
      (by decide)).1.trans (by decide),
    (shift_laws 8 3 16 true (List.replicate 16 true) 0).2.2⟩

end BitSlice

namespace BitSlice

theorem getD_set_self (l : List Bool) (i : Nat) (v : Bool) (h : i < l.length) :
    (l.set i v).getD i false = v := by
  induction l generalizing i with
  | nil => simp at h
  | cons a as ih =>
    cases i with
    | zero => rfl
    | succ n => exact ih n (by simpa using h)

theorem getD_set_ne (l : List Bool) (i j : Nat) (v : Bool) (h : j ≠ i) :
    (l.set i v).getD j false = l.getD j false := by
  induction l generalizing i j with
  | nil => rfl
  | cons a as ih =>
    cases i with
    | zero =>
      cases j with
      | zero => exact absurd rfl h
      | succ m => rfl
    | succ n =>
      cases j with
      | zero => rfl
      | succ m => exact ih n m (by omega)

theorem getD_drop_take (l : List Bool) (s n j : Nat) (hj : j < n)
    (hl : s + n ≤ l.length) :
    ((l.drop s).take n).getD j false = l.getD (s + j) false := by
  induction l generalizing s n j with
  | nil =>
    simp at hl
    omega
  | cons a as ih =>
    cases s with
    | zero =>
      cases n with
      | zero => omega
      | succ m =>
        cases j with
        | zero => rfl
        | succ k =>
          simpa using ih 0 m k (by omega) (by simpa using hl)
    | succ t =>
      have h1 : t + 1 + j = t + j + 1 := by omega
      rw [List.drop_succ_cons, h1, List.getD_cons_succ]
      exact ih t n j hj (by simp only [List.length_cons] at hl; omega)

end BitSlice

namespace BitSlice

/-- C8: the checked point and range accessors fail exactly on violated bounds
and never clamp: `set` and single-bit indexing succeed exactly when
`index < len`, range indexing succeeds exactly when `start <= stop` and
`stop <= len`, a failed `set` writes nothing, and a successful operation uses
the exact requested bounds (the written bit lands at `index` with all other
bits unchanged, and the subslice has exactly the requested bits). -/
theorem checked_indexing (l : List Bool) (i : Nat) (v : Bool) (s e : Nat) :
    ((set l i v).isSome ↔ i < l.length) ∧
    ((index_bit l i).isSome ↔ i < l.length) ∧
    ((index_range l s e).isSome ↔ (s ≤ e ∧ e ≤ l.length)) ∧
    (i < l.length →
      set l i v = Option.some (l.set i v) ∧
      (l.set i v).getD i false = v ∧
      ∀ j, j ≠ i → (l.set i v).getD j false = l.getD j false) ∧
    (s ≤ e → e ≤ l.length →
      index_range l s e = Option.some ((l.drop s).take (e - s)) ∧
      ((l.drop s).take (e - s)).length = e - s ∧
      ∀ j, j < e - s →
        ((l.drop s).take (e - s)).getD j false = l.getD (s + j) false) := by
  refine ⟨?_, ?_, ?_, fun h => ?_, fun hse hel => ?_⟩
  · by_cases h : i < l.length <;> simp [set, h]
  · by_cases h : i < l.length <;> simp [index_bit, h]
  · constructor
    · intro h
      by_contra hc
      rw [index_range] at h
      split at h
      · split at h
        · split at h
          · exact hc ⟨by assumption, by assumption⟩
          · simp at h
        · simp at h
      · simp at h
    · rintro ⟨h1, h2⟩
      simp [index_range, h1, h2, le_trans h1 h2]
  · exact ⟨by simp [set, h], getD_set_self l i v h,
      fun j hj => getD_set_ne l i j v hj⟩
  · refine ⟨by simp [index_range, hse, hel, le_trans hse hel], ?_, ?_⟩
    · simp only [List.length_take, List.length_drop]
      omega
    · intro j hj
      exact getD_drop_take l s (e - s) j hj (by omega)

/-- Witness for C8 at a concrete input. -/
theorem checked_indexing_case :
    set [true, false, true] 1 true = Option.some [true, true, true] ∧
    index_range [true, false, true] 1 3
      = Option.some [false, true] :=
  ⟨((checked_indexing [true, false, true] 1 true 1 3).2.2.2.1
      (by decide)).1.trans (by decide),
    (((checked_indexing [true, false, true] 1 true 1 3).2.2.2.2
      (by decide) (by decide)).1).trans (by decide)⟩

/-- C9: the single-bit write guard honors its contract: acquisition fails
exactly when `index >= len`; otherwise the guard snapshots the current bit,
and releasing it with any (possibly rewritten) cached value writes exactly
that value to the guarded index, leaving the length and every other bit of
the slice unchanged. -/
theorem guard_contract (l : List Bool) (i : Nat) :
    (l.length ≤ i → at_bit l i = Option.none) ∧
    (i < l.length →
      at_bit l i = Option.some ⟨l.getD i false, i⟩ ∧
      ∀ v : Bool,
        (commit l ⟨v, i⟩).getD i false = v ∧
        (commit l ⟨v, i⟩).length = l.length ∧
        ∀ j, j ≠ i → (commit l ⟨v, i⟩).getD j false = l.getD j false) := by
  refine ⟨fun h => by simp [at_bit]; omega, fun h => ⟨by simp [at_bit, h], ?_⟩⟩
  intro v
  exact ⟨getD_set_self l i v h, by simp [commit],
    fun j hj => getD_set_ne l i j v hj⟩

/-- Witness for C9 at a concrete input. -/
theorem guard_contract_case :
    at_bit [false, true] 0 = Option.some ⟨false, 0⟩ ∧
    (commit [false, true] ⟨true, 0⟩).getD 0 false = true :=
  ⟨((guard_contract [false, true] 0).2 (by decide)).1.trans (by decide),
    (((guard_contract [false, true] 0).2 (by decide)).2 true).1⟩

end BitSlice

namespace BitStore

theorem get_eq_testBit (pos : Nat → Nat) (e place : Nat) :
    get pos e place = e.testBit (pos place) := by
  rw [get, mask, Nat.and_two_pow]
  cases h : e.testBit (pos place) with
  | false => simp
  | true =>
    simp only [Bool.toNat_true, one_mul, ne_eq, decide_eq_true_eq]
    exact pow_ne_zero _ (by norm_num)

theorem testBit_set (w : Nat) (pos : Nat → Nat) (e place : Nat) (v : Bool)
    (k : Nat) (hk : k < w) :
    (set w pos e place v).testBit k
      = if k = pos place then v else e.testBit k := by
  cases v with
  | true =>
    have hset : set w pos e place true = e ||| 2 ^ pos place := by
      simp [set, mask]
    rw [hset, Nat.testBit_lor]
    by_cases hkp : k = pos place
    · subst hkp
      simp [Nat.testBit_two_pow_self]
    · rw [Nat.testBit_two_pow_of_ne (fun h => hkp h.symm)]
      simp [hkp]
  | false =>
    have hset : set w pos e place false
        = e &&& ((2 ^ w - 1) ^^^ 2 ^ pos place) := by
      simp [set, mask]
    rw [hset, Nat.testBit_land, Nat.testBit_xor, Nat.testBit_two_pow_sub_one]
    by_cases hkp : k = pos place
    · subst hkp
      simp [Nat.testBit_two_pow_self, hk]
    · rw [Nat.testBit_two_pow_of_ne (fun h => hkp h.symm)]
      simp [hkp, hk]

/-- C10: under any cursor whose position map keeps indices inside the element
width and is injective there, `BitStore::set` followed by `BitStore::get` at
the written index returns the written value, and `BitStore::get` at every
other in-width index is unchanged. -/
theorem set_get_frame (w : Nat) (pos : Nat → Nat) (e place q : Nat) (v : Bool)
    (hinj : ∀ i, i < w → ∀ j, j < w → pos i = pos j → i = j)
    (hpos : ∀ i, i < w → pos i < w)
    (hplace : place < w) (hq : q < w) (hne : q ≠ place) :
    get pos (set w pos e place v) place = v ∧
    get pos (set w pos e place v) q = get pos e q := by
  constructor
  · rw [get_eq_testBit, testBit_set w pos e place v (pos place)
      (hpos place hplace), if_pos rfl]
  · rw [get_eq_testBit, get_eq_testBit, testBit_set w pos e place v (pos q)
      (hpos q hq), if_neg]
    intro h
    exact hne (hinj q hq place hplace h)

/-- Witness for C10 at a concrete input: width 8, identity cursor. -/
theorem set_get_frame_case :
    get (fun i => i) (set 8 (fun i => i) 37 3 true) 3 = true ∧
    get (fun i => i) (set 8 (fun i => i) 37 3 true) 5 = get (fun i => i) 37 5 :=
  set_get_frame 8 (fun i => i) 37 3 5 true
    (fun i _ j _ h => h) (fun i hi => hi) (by decide) (by decide) (by decide)

end BitStore

namespace BitSlice

theorem ripple_length (as bs : List Bool) (c : Bool) :
    ((ripple as bs c).1).length = as.length := by
  induction as generalizing bs c with
  | nil => rfl
  | cons a as ih => simp [ripple, ih]

theorem rca1_val (a b c : Bool) :
    (rca1 a b c).1.toNat + 2 * (rca1 a b c).2.toNat
      = a.toNat + b.toNat + c.toNat := by
  cases a <;> cases b <;> cases c <;> decide

theorem toNatLE_take_succ (bs : List Bool) (n : Nat) :
    toNatLE (bs.take (n + 1))
      = (bs.headD false).toNat + 2 * toNatLE (bs.tail.take n) := by
  cases bs <;> simp [toNatLE]

theorem ripple_val (as bs : List Bool) (c : Bool) :
    toNatLE (ripple as bs c).1 + 2 ^ as.length * (ripple as bs c).2.toNat
      = toNatLE as + toNatLE (bs.take as.length) + c.toNat := by
  induction as generalizing bs c with
  | nil => simp [ripple, toNatLE]
  | cons a as ih =>
    have key : ∀ (y z : Bool) (r : List Bool × Bool),
        y.toNat + 2 * z.toNat
            = a.toNat + (bs.headD false).toNat + c.toNat →
        toNatLE r.1 + 2 ^ as.length * r.2.toNat
            = toNatLE as + toNatLE (bs.tail.take as.length) + z.toNat →
        toNatLE (y :: r.1) + 2 ^ (as.length + 1) * r.2.toNat
            = toNatLE (a :: as) + toNatLE (bs.take (as.length + 1))
              + c.toNat := by
      intro y z r h1 h2
      calc toNatLE (y :: r.1) + 2 ^ (as.length + 1) * r.2.toNat
          = y.toNat + 2 * (toNatLE r.1 + 2 ^ as.length * r.2.toNat) := by
            rw [pow_succ]
            simp only [toNatLE]
            ring
        _ = y.toNat
              + 2 * (toNatLE as + toNatLE (bs.tail.take as.length)
                + z.toNat) := by rw [h2]
        _ = (y.toNat + 2 * z.toNat) + 2 * toNatLE as
              + 2 * toNatLE (bs.tail.take as.length) := by ring
        _ = (a.toNat + (bs.headD false).toNat + c.toNat) + 2 * toNatLE as
              + 2 * toNatLE (bs.tail.take as.length) := by rw [h1]
        _ = toNatLE (a :: as) + toNatLE (bs.take (as.length + 1))
              + c.toNat := by
            rw [toNatLE_take_succ]
            simp only [toNatLE]
            ring
    simp only [ripple, List.length_cons]
    exact key _ _ _ (rca1_val a (bs.headD false) c)
      (ih bs.tail (rca1 a (bs.headD false) c).2)

theorem add_assign_reverse_val (l m : List Bool) :
    toNatLE (add_assign_reverse l m).1
        + 2 ^ l.length * (add_assign_reverse l m).2.toNat
      = toNatLE l + toNatLE (m.take l.length) := by
  simpa [add_assign_reverse] using ripple_val l m false

theorem toNatLE_lt (l : List Bool) : toNatLE l < 2 ^ l.length := by
  induction l with
  | nil => simp [toNatLE]
  | cons a as ih =>
    have hb : a.toNat ≤ 1 := Bool.toNat_le a
    simp only [toNatLE, List.length_cons, pow_succ]
    omega

theorem add_assign_reverse_carry (l m : List Bool) :
    (add_assign_reverse l m).2
      = decide (2 ^ l.length ≤ toNatLE l + toNatLE (m.take l.length)) := by
  have hv := add_assign_reverse_val l m
  have hlt : toNatLE (add_assign_reverse l m).1 < 2 ^ l.length := by
    have h := toNatLE_lt (add_assign_reverse l m).1
    rwa [show ((add_assign_reverse l m).1).length = l.length from
      ripple_length l m false] at h
  cases h : (add_assign_reverse l m).2 with
  | false =>
    rw [h] at hv
    simp only [Bool.toNat_false, Nat.mul_zero, Nat.add_zero] at hv
    have hnp : ¬ 2 ^ l.length ≤ toNatLE l + toNatLE (m.take l.length) := by
      omega
    simp [hnp]
  | true =>
    rw [h] at hv
    simp only [Bool.toNat_true, Nat.mul_one] at hv
    have hp : 2 ^ l.length ≤ toNatLE l + toNatLE (m.take l.length) := by
      omega
    simp [hp]

theorem toNatLE_inj (l m : List Bool) (hlen : l.length = m.length)
    (hv : toNatLE l = toNatLE m) : l = m := by
  induction l generalizing m with
  | nil =>
    cases m with
    | nil => rfl
    | cons b bs => simp at hlen
  | cons a as ih =>
    cases m with
    | nil => simp at hlen
    | cons b bs =>
      simp only [toNatLE] at hv
      have hab : a = b ∧ toNatLE as = toNatLE bs := by
        cases a <;> cases b <;> simp at hv ⊢ <;> omega
      rw [hab.1, ih bs (by simpa using hlen) hab.2]

theorem toNatBE_inj (l m : List Bool) (hlen : l.length = m.length)
    (hv : toNatBE l = toNatBE m) : l = m := by
  have h := toNatLE_inj l.reverse m.reverse (by simpa using hlen) hv
  exact List.reverse_injective h

theorem bitnot_length (l : List Bool) : (bitnot l).length = l.length := by
  simp [bitnot]

theorem bitnot_reverse (l : List Bool) :
    (bitnot l).reverse = bitnot l.reverse := by
  simp [bitnot, List.map_reverse]

theorem toNatLE_bitnot (l : List Bool) :
    toNatLE (bitnot l) + toNatLE l + 1 = 2 ^ l.length := by
  induction l with
  | nil => simp [bitnot, toNatLE]
  | cons a as ih =>
    cases a <;>
      simp only [bitnot, List.map_cons, toNatLE, List.length_cons, pow_succ,
        Bool.not_false, Bool.not_true, Bool.toNat_false, Bool.toNat_true] at ih ⊢ <;>
      omega

theorem add_assign_length (l m : List Bool) :
    (add_assign l m).length = l.length := by
  simp [add_assign, ripple_length]

theorem toNatBE_addone (l : List Bool) (h : l ≠ []) :
    toNatBE (add_assign l [true]) = (toNatBE l + 1) % 2 ^ l.length := by
  have hlen : 1 ≤ l.length := List.length_pos.mpr h
  have hv := ripple_val l.reverse [true] false
  rw [show ([true] : List Bool).take l.reverse.length = [true] from
    List.take_of_length_le (by simpa using hlen)] at hv
  have hR : toNatBE (add_assign l [true])
      = toNatLE (ripple l.reverse [true] false).1 := by
    simp [toNatBE, add_assign]
  have hlt : toNatLE (ripple l.reverse [true] false).1 < 2 ^ l.length := by
    have h2 := toNatLE_lt (ripple l.reverse [true] false).1
    rwa [ripple_length, List.length_reverse] at h2
  have hvlt : toNatLE l.reverse < 2 ^ l.length := by
    have h2 := toNatLE_lt l.reverse
    rwa [List.length_reverse] at h2
  rw [List.length_reverse] at hv
  have hgoal : toNatLE (ripple l.reverse [true] false).1
      = (toNatLE l.reverse + 1) % 2 ^ l.length := by
    generalize hP : (2 : Nat) ^ l.length = P at hv hlt hvlt ⊢
    cases hc : (ripple l.reverse [true] false).2 with
    | false =>
      rw [hc] at hv
      simp only [Bool.toNat_false, Nat.mul_zero, Nat.add_zero, Bool.toNat_true,
        toNatLE] at hv
      have hb : toNatLE l.reverse + 1 < P := hv ▸ hlt
      rw [Nat.mod_eq_of_lt hb]
      exact hv
    | true =>
      rw [hc] at hv
      simp only [Bool.toNat_true, Bool.toNat_false, Nat.mul_one, Nat.mul_zero,
        Nat.add_zero, toNatLE] at hv
      have hle1 : toNatLE l.reverse + 1 ≤ P := Nat.succ_le_of_lt hvlt
      have hle2 : P ≤ toNatLE l.reverse + 1 := by
        rw [← hv]
        exact Nat.le_add_left P _
      have hsum : toNatLE l.reverse + 1 = P := Nat.le_antisymm hle1 hle2
      rw [hsum, Nat.mod_self]
      have h0 : toNatLE (ripple l.reverse [true] false).1 + P = 0 + P := by
        rw [Nat.zero_add, hv, hsum]
      exact Nat.add_right_cancel h0
  rw [hR]
  exact hgoal

theorem any_reverse (l : List Bool) : l.reverse.any id = l.any id := by
  simp [List.any_eq_true, List.mem_reverse]

theorem toNatLE_eq_zero_iff (l : List Bool) :
    toNatLE l = 0 ↔ l.any id = false := by
  induction l with
  | nil => simp [toNatLE]
  | cons a as ih =>
    cases a <;> simp [toNatLE, ih]

theorem toNatBE_eq_zero_iff (l : List Bool) :
    toNatBE l = 0 ↔ any l = false := by
  rw [toNatBE, toNatLE_eq_zero_iff, any_reverse, any]

theorem toNatLE_replicate_false_append (n : Nat) :
    toNatLE (List.replicate n false ++ [true]) = 2 ^ n := by
  induction n with
  | zero => simp [toNatLE]
  | succ m ih =>
    rw [List.replicate_succ, List.cons_append]
    simp only [toNatLE, Bool.toNat_false]
    rw [ih, pow_succ]
    ring

theorem toNatBE_mostneg (n : Nat) :
    toNatBE (true :: List.replicate n false) = 2 ^ n := by
  rw [toNatBE, List.reverse_cons, List.reverse_replicate,
    toNatLE_replicate_false_append]

theorem eq_replicate_of_any_eq_false (l : List Bool) (h : l.any id = false) :
    l = List.replicate l.length false := by
  induction l with
  | nil => rfl
  | cons a as ih =>
    cases a with
    | true => simp at h
    | false =>
      simp only [List.any_cons, id, Bool.false_or] at h
      simp only [List.length_cons, List.replicate_succ, List.cons.injEq,
        true_and]
      exact ih h

theorem neg_of_mixed (l : List Bool) (hne : l ≠ []) (hany : any l = true)
    (hmn : l ≠ true :: List.replicate (l.length - 1) false) :
    neg l = add_assign (bitnot l) [true] := by
  have hc1 : ¬(l.isEmpty || not_any l) = true := by
    simp [not_any, hany, List.isEmpty_iff, hne]
  have hc2 : ¬(l.getD 0 false && not_any (l.set 0 false)) = true := by
    intro hc
    simp only [Bool.and_eq_true] at hc
    obtain ⟨hc0, hcz⟩ := hc
    cases l with
    | nil => exact hne rfl
    | cons a rest =>
      have ha : a = true := by simpa using hc0
      subst ha
      have hrest : rest.any id = false := by
        have h1 : any ((true :: rest).set 0 false) = false := by
          simpa [not_any] using hcz
        simpa [any, List.set] using h1
      have : rest = List.replicate rest.length false :=
        eq_replicate_of_any_eq_false rest hrest
      exact hmn (by simp [List.length_cons]; exact this)
  rw [neg, if_neg hc1, if_neg hc2]

theorem neg_val (l : List Bool) (hne : l ≠ []) (hany : any l = true)
    (hmn : l ≠ true :: List.replicate (l.length - 1) false) :
    toNatBE (neg l) = 2 ^ l.length - toNatBE l ∧
    (neg l).length = l.length := by
  have hv0 : toNatBE l ≠ 0 := by
    intro h0
    rw [toNatBE_eq_zero_iff] at h0
    rw [h0] at hany
    exact Bool.false_ne_true hany
  have hvlt : toNatBE l < 2 ^ l.length := by
    have h2 := toNatLE_lt l.reverse
    rwa [List.length_reverse] at h2
  have hbn : toNatBE (bitnot l) + toNatBE l + 1 = 2 ^ l.length := by
    have h2 := toNatLE_bitnot l.reverse
    rw [List.length_reverse] at h2
    rw [toNatBE, toNatBE, bitnot_reverse]
    exact h2
  have hbne : bitnot l ≠ [] := by
    intro h2
    have h3 := bitnot_length l
    rw [h2] at h3
    exact hne (List.eq_nil_of_length_eq_zero h3.symm)
  rw [neg_of_mixed l hne hany hmn]
  constructor
  · rw [toNatBE_addone (bitnot l) hbne, bitnot_length]
    rw [Nat.mod_eq_of_lt (by omega)]
    omega
  · rw [add_assign_length, bitnot_length]

/-- C1: the three negation laws of fixed-width twos-complement negation on a
bit slice: an empty or all-zero slice negates to itself (unchanged and still
all zero); the most negative pattern (bit 0 set, every other bit clear)
negates to the all-zero slice; and every other nonempty pattern returns to
itself after negating twice. -/
theorem neg_laws (l : List Bool) :
    (not_any l = true → neg l = l) ∧
    (∀ n, l = true :: List.replicate n false →
      neg l = List.replicate (n + 1) false) ∧
    (l ≠ [] → any l = true →
      l ≠ true :: List.replicate (l.length - 1) false →
      neg (neg l) = l) := by
  refine ⟨fun h => ?_, fun n hl => ?_, fun hne hany hmn => ?_⟩
  · rw [neg, if_pos]
    simp [h]
  · subst hl
    have hc1 : ¬((true :: List.replicate n false).isEmpty
        || not_any (true :: List.replicate n false)) = true := by
      simp [not_any, any]
    have hc2 : ((true :: List.replicate n false).getD 0 false
        && not_any ((true :: List.replicate n false).set 0 false)) = true := by
      simp [not_any, any, List.set]
    rw [neg, if_neg hc1, if_pos hc2]
    simp [List.set, List.replicate_succ]
  · have hvlt : toNatBE l < 2 ^ l.length := by
      have h2 := toNatLE_lt l.reverse
      rwa [List.length_reverse] at h2
    have hv0 : toNatBE l ≠ 0 := by
      intro h0
      rw [toNatBE_eq_zero_iff] at h0
      rw [h0] at hany
      exact Bool.false_ne_true hany
    obtain ⟨hval, hlen⟩ := neg_val l hne hany hmn
    have hlpos : 0 < l.length := List.length_pos.mpr hne
    have hmne : neg l ≠ [] := by
      intro h2
      rw [h2] at hlen
      simp at hlen
      omega
    have hmany : any (neg l) = true := by
      cases hb : any (neg l) with
      | true => rfl
      | false =>
        have h2 : toNatBE (neg l) = 0 := (toNatBE_eq_zero_iff _).mpr hb
        omega
    have hpow : 2 ^ l.length = 2 * 2 ^ (l.length - 1) := by
      have h2 : l.length = (l.length - 1) + 1 := by omega
      calc 2 ^ l.length = 2 ^ ((l.length - 1) + 1) := by rw [← h2]
        _ = 2 * 2 ^ (l.length - 1) := by rw [pow_succ']
    have hmmn : neg l ≠ true :: List.replicate ((neg l).length - 1) false := by
      intro he
      have h2 : toNatBE (neg l) = 2 ^ ((neg l).length - 1) := by
        conv_lhs => rw [he]
        rw [toNatBE_mostneg]
      rw [hlen] at h2
      have hveq : toNatBE l = 2 ^ (l.length - 1) := by omega
      have hlm : l = true :: List.replicate (l.length - 1) false := by
        apply toNatBE_inj
        · simp only [List.length_cons, List.length_replicate]
          omega
        · rw [hveq, toNatBE_mostneg]
      exact hmn hlm
    obtain ⟨hval2, hlen2⟩ := neg_val (neg l) hmne hmany hmmn
    apply toNatBE_inj
    · rw [hlen2, hlen]
    · rw [hval2, hlen, hval]
      omega

/-- Witness for C1 at concrete inputs: the double-negation law applied to the
four-bit pattern for ten. -/
theorem neg_laws_case :
    neg (neg [true, false, true, false]) = [true, false, true, false] :=
  (neg_laws [true, false, true, false]).2.2 (by decide) (by decide) (by decide)

/-- C3: fixed-width addition wraps modulo two to the slice length and
produces the correct carry-out: the returned slice and final carry of the
reverse (index 0 least significant) variant decompose the exact sum of the
operand values, the carry is set exactly when the sum reaches the width
bound, and on the four-bit operands ten and twelve the in-place big-endian
addition yields six (the sum modulo sixteen) while the reverse variant on the
same values, least significant bit first, returns six and carry-out true. -/
theorem add_assign_laws :
    (∀ l m : List Bool,
      toNatLE (add_assign_reverse l m).1
          + 2 ^ l.length * (add_assign_reverse l m).2.toNat
        = toNatLE l + toNatLE (m.take l.length)) ∧
    (∀ l m : List Bool,
      (add_assign_reverse l m).2
        = decide (2 ^ l.length ≤ toNatLE l + toNatLE (m.take l.length))) ∧
    add_assign [true, false, true, false] [true, true, false, false]
      = [false, true, true, false] ∧
    toNatBE (add_assign [true, false, true, false] [true, true, false, false])
      = (10 + 12) % 2 ^ 4 ∧
    add_assign_reverse [false, true, false, true] [false, false, true, true]
      = ([false, true, true, false], true) ∧
    toNatLE [false, true, false, true] = 10 ∧
    toNatLE [false, false, true, true] = 12 :=
  ⟨add_assign_reverse_val, add_assign_reverse_carry, by decide, by decide,
    by decide, by decide, by decide⟩

end BitSlice

namespace BitView

/-- C7: the aggregate boolean queries obey vacuous truth and the definition
of `some`: on a zero-length view `all` is `true`, `any` is `false` and `some`
is `false`; and on every view `some` equals `any && !all`. -/
theorem aggregate_queries (pos : Nat → Nat) (v : View) :
    (v.len = 0 →
      all pos v = true ∧ any pos v = false ∧ some pos v = false) ∧
    some pos v = (any pos v && !(all pos v)) := by
  constructor
  · intro h
    have hc : classify v = Domain.empty := by
      rw [classify, if_pos h]
    refine ⟨?_, ?_, ?_⟩ <;>
      simp [all, any, some, not_all, hc]
  · rfl

/-- Witness for C7 at a concrete empty view. -/
theorem aggregate_queries_case :
    all (fun i => i) ⟨8, 0, 0, []⟩ = true ∧
    any (fun i => i) ⟨8, 0, 0, []⟩ = false ∧
    some (fun i => i) ⟨8, 0, 0, []⟩ = false :=
  (aggregate_queries (fun i => i) ⟨8, 0, 0, []⟩).1 rfl

theorem sum_toNat_bool (f g : Nat → Bool) (ns : List Nat)
    (h : ∀ i ∈ ns, g i = !(f i)) :
    (ns.map fun i => (f i).toNat).sum + (ns.map fun i => (g i).toNat).sum
      = ns.length := by
  induction ns with
  | nil => rfl
  | cons a as ih =>
    have ha := h a (List.mem_cons_self a as)
    have hih := ih fun i hi => h i (List.mem_cons_of_mem a hi)
    simp only [List.map_cons, List.sum_cons, List.length_cons]
    cases hfa : f a <;> rw [ha, hfa] <;> simp <;> omega

theorem onesRange_add_zerosRange (pos : Nat → Nat) (e a b : Nat) :
    onesRange pos e a b + zerosRange pos e a b = b - a := by
  have h := sum_toNat_bool (fun n => BitStore.get pos e n)
    (fun n => !(BitStore.get pos e n)) (List.range' a (b - a))
    (fun i _ => rfl)
  simpa [onesRange, zerosRange] using h

theorem elCount_add (w e : Nat) :
    BitStore.count_ones w e + BitStore.count_zeros w e = w := by
  have hg : ∀ i ∈ List.range w,
      Nat.testBit ((2 ^ w - 1) ^^^ e) i = !(Nat.testBit e i) := by
    intro i hi
    rw [Nat.testBit_xor, Nat.testBit_two_pow_sub_one]
    simp [List.mem_range.mp hi]
  have h := sum_toNat_bool (fun i => Nat.testBit e i)
    (fun i => Nat.testBit ((2 ^ w - 1) ^^^ e) i) (List.range w) hg
  simpa [BitStore.count_ones, BitStore.count_zeros] using h

theorem body_sum (w : Nat) (body : List Nat) :
    (body.map (BitStore.count_ones w)).sum
        + (body.map (BitStore.count_zeros w)).sum
      = body.length * w := by
  induction body with
  | nil => simp
  | cons e es ih =>
    simp only [List.map_cons, List.sum_cons, List.length_cons]
    calc BitStore.count_ones w e + (es.map (BitStore.count_ones w)).sum
          + (BitStore.count_zeros w e + (es.map (BitStore.count_zeros w)).sum)
        = (BitStore.count_ones w e + BitStore.count_zeros w e)
            + ((es.map (BitStore.count_ones w)).sum
              + (es.map (BitStore.count_zeros w)).sum) := by ring
      _ = w + es.length * w := by rw [elCount_add, ih]
      _ = (es.length + 1) * w := by ring

theorem span_facts (v : View) (hw : 0 < v.w) (hl : v.len ≠ 0) :
    1 ≤ elts v ∧
    (elts v - 1) * v.w < v.head + v.len ∧
    v.head + v.len ≤ (elts v - 1) * v.w + v.w ∧
    (elts v - 1) * v.w + tailBits v = v.head + v.len := by
  have hdm := Nat.div_add_mod (v.head + v.len + v.w - 1) v.w
  have hmo : (v.head + v.len + v.w - 1) % v.w < v.w := Nat.mod_lt _ hw
  have he : elts v = (v.head + v.len + v.w - 1) / v.w := rfl
  rw [← he] at hdm
  rcases Nat.eq_zero_or_pos (elts v) with h0 | h1
  · exfalso
    rw [h0, Nat.mul_zero, Nat.zero_add] at hdm
    omega
  · obtain ⟨E, hE⟩ : ∃ E, elts v = E + 1 := ⟨elts v - 1, by omega⟩
    rw [hE] at hdm
    have hmul : v.w * (E + 1) = v.w * E + v.w := by ring
    rw [hmul] at hdm
    have hE1 : (elts v - 1) * v.w = v.w * E := by
      rw [hE, Nat.add_sub_cancel, Nat.mul_comm]
    have ht : tailBits v
        = v.head + v.len - (elts v - 1) * v.w := rfl
    rw [hE1] at ht
    refine ⟨by omega, ?_, ?_, ?_⟩ <;> rw [hE1]
    · omega
    · omega
    · rw [ht]
      omega

end BitView

namespace BitView

/-- C6: for every well-formed view, over any cursor position map, the counts
of set and clear bits computed by the edge-bit/body-element split add up to
exactly the bit length of the view, in every one of the six domain shapes. -/
theorem count_ones_add_count_zeros (pos : Nat → Nat) (v : View)
    (h : Wf v) :
    count_ones pos v + count_zeros pos v = v.len := by
  obtain ⟨hw, hh, hm⟩ := h
  by_cases hl : v.len = 0
  · have hc : classify v = Domain.empty := by
      rw [classify, if_pos hl]
    simp [count_ones, count_zeros, hc, hl]
  · obtain ⟨hE1, hltb, hleb, htail⟩ := span_facts v hw hl
    by_cases hsp : v.head = 0 ∧ tailBits v = v.w
    · -- Spanning
      have hc : classify v = Domain.spanning v.mem := by
        rw [classify, if_neg hl, if_pos hsp]
      obtain ⟨h0, htw⟩ := hsp
      simp only [count_ones, count_zeros, hc]
      rw [body_sum, hm]
      have hEw : elts v * v.w = (elts v - 1) * v.w + v.w := by
        obtain ⟨E, hE⟩ : ∃ E, elts v = E + 1 := ⟨elts v - 1, by omega⟩
        rw [hE, Nat.add_sub_cancel]
        ring
      rw [hEw]
      generalize hA : (elts v - 1) * v.w = A at htail
      omega
    · by_cases h0 : v.head = 0
      · -- PartialTail
        have hc : classify v
            = Domain.partialTail v.mem.dropLast (v.mem.getLastD 0)
              (tailBits v) := by
          rw [classify, if_neg hl, if_neg hsp, if_pos h0]
        simp only [count_ones, count_zeros, hc]
        have hbs := body_sum v.w v.mem.dropLast
        rw [List.length_dropLast, hm] at hbs
        have hrs := onesRange_add_zerosRange pos (v.mem.getLastD 0) 0
          (tailBits v)
        generalize hA : (elts v - 1) * v.w = A at htail hbs
        omega
      · by_cases htw : tailBits v = v.w
        · -- PartialHead
          have hc : classify v
              = Domain.partialHead v.head (v.mem.headD 0) v.mem.tail := by
            rw [classify, if_neg hl, if_neg hsp, if_neg h0, if_pos htw]
          simp only [count_ones, count_zeros, hc]
          have hbs := body_sum v.w v.mem.tail
          rw [List.length_tail, hm] at hbs
          have hrs := onesRange_add_zerosRange pos (v.mem.headD 0) v.head v.w
          generalize hA : (elts v - 1) * v.w = A at htail hbs
          omega
        · by_cases he1 : elts v = 1
          · -- Minor
            have hc : classify v
                = Domain.minor v.head (v.mem.headD 0) (tailBits v) := by
              rw [classify, if_neg hl, if_neg hsp, if_neg h0, if_neg htw,
                if_pos he1]
            simp only [count_ones, count_zeros, hc]
            have h00 : (elts v - 1) * v.w = 0 := by
              rw [he1]
              simp
            rw [h00, Nat.zero_add] at htail
            rw [onesRange_add_zerosRange]
            omega
          · -- Major
            have hc : classify v
                = Domain.major v.head (v.mem.headD 0) v.mem.tail.dropLast
                  (v.mem.getLastD 0) (tailBits v) := by
              rw [classify, if_neg hl, if_neg hsp, if_neg h0, if_neg htw,
                if_neg he1]
            simp only [count_ones, count_zeros, hc]
            obtain ⟨E, hE⟩ : ∃ E, elts v = E + 2 := ⟨elts v - 2, by omega⟩
            have hA : (elts v - 1) * v.w = E * v.w + v.w := by
              rw [hE]
              have h2 : E + 2 - 1 = E + 1 := by omega
              rw [h2]
              ring
            have hbs := body_sum v.w v.mem.tail.dropLast
            have hB : v.mem.tail.dropLast.length = E := by
              rw [List.length_dropLast, List.length_tail, hm, hE]
              omega
            rw [hB] at hbs
            have hrsh := onesRange_add_zerosRange pos (v.mem.headD 0) v.head
              v.w
            have hrst := onesRange_add_zerosRange pos (v.mem.getLastD 0) 0
              (tailBits v)
            rw [hA] at htail
            generalize hM : E * v.w = M at htail hbs
            omega

/-- Witness for C6 at a concrete view: width 8, head offset 3, length 18,
three storage elements (a Major decomposition with one body element). -/
theorem count_ones_add_count_zeros_case :
    count_ones (fun i => i) ⟨8, 3, 18, [165, 15, 255]⟩
      + count_zeros (fun i => i) ⟨8, 3, 18, [165, 15, 255]⟩ = 18 :=
  count_ones_add_count_zeros (fun i => i) ⟨8, 3, 18, [165, 15, 255]⟩
    (by refine ⟨by decide, by decide, by decide⟩)

end BitView
